import Mathlib

/-!
# Verification of the concurrent web crawler (`crawler.ts`)

Shallow embedding of the crawler module: `normalizeURL`, `isSameSubdomain`
and the concurrent `crawl` scheduler (`processQueue` / `processURL`).

JavaScript strings are modelled as `List Char` (`JStr`).  The platform's
WHATWG `new URL(s)` parser is modelled by `parseURL` for the fragment the
crawler exercises: absolute URLs of the shape
`scheme://[userinfo@]host[:port][/path][?query][#fragment]`.
The model keeps the WHATWG behaviours the crawler depends on
(`protocol` keeps its trailing colon; `hostname` excludes userinfo and
port; an absent path serializes as `/`; an empty query/fragment gives an
empty `search`/`hash`), and omits behaviours the crawler never touches
(percent-encoding, host case-folding, IDNA, dot-segment removal,
default-port elision, non-authority schemes such as `mailto:`).

The scheduler is modelled twice over the same primitive transitions
(`admitOne`, `completeOne`):
* a non-deterministic small-step relation `Step` whose completion order is
  arbitrary, used for the state invariants;
* a deterministic fuel interpreter `stepD` / `runD` (completions in
  dispatch order — one legal schedule of the JS event loop), used for
  concrete executions and termination; `stepD` is sound for `Step`.
-/

set_option maxRecDepth 10000

abbrev JStr := List Char

/-- Model of the components JS exposes on a parsed `URL` object.
`scheme` is the protocol without the trailing colon; `hostname` excludes
userinfo and port, mirroring `url.hostname`. -/
structure URLRec where
  scheme : JStr
  userinfo : Option JStr
  hostname : JStr
  port : Option JStr
  pathname : JStr
  search : JStr
  hash : JStr
deriving Repr, DecidableEq

/-- Characters allowed in a URL scheme (RFC 3986 / WHATWG). -/
def isSchemeChar (c : Char) : Bool :=
  c.isAlpha || c.isDigit || c == '+' || c == '-' || c == '.'

/-- A character that terminates the authority component. -/
def isAuthorityEnd (c : Char) : Bool :=
  c == '/' || c == '?' || c == '#'

/-- Characters acceptable inside a host name: everything except the
WHATWG forbidden host code points modelled here (authority terminators,
`:` `@` `[` `]` `\` and control characters / space). -/
def isHostOk (c : Char) : Bool :=
  !(c == '/') && !(c == '?') && !(c == '#') && !(c == ':') && !(c == '@') &&
  !(c == '[') && !(c == ']') && !(c == '\\') && decide (32 < c.toNat)

/-- Split a list at the LAST occurrence of `ch` (WHATWG splits userinfo at
the last `@` and the port at the last `:`); `none` when `ch` is absent. -/
def splitAtLast (ch : Char) : JStr → Option (JStr × JStr)
  | [] => none
  | c :: cs =>
    match splitAtLast ch cs with
    | some (a, b) => some (c :: a, b)
    | none => if c = ch then some ([], cs) else none

/-- Parse path, query and fragment out of what follows the authority,
then assemble the record.  An absent path becomes `/` and an empty query
becomes an empty `search`, as on a JS `URL` object. -/
def finishParse (scheme : JStr) (userinfo : Option JStr) (host : JStr)
    (port : Option JStr) (tail : JStr) : Option URLRec :=
  let path := tail.takeWhile (fun c => !(c == '?') && !(c == '#'))
  let rest1 := tail.dropWhile (fun c => !(c == '?') && !(c == '#'))
  let query :=
    match rest1 with
    | '?' :: r => r.takeWhile (fun c => !(c == '#'))
    | _ => []
  let frag :=
    match rest1.dropWhile (fun c => !(c == '#')) with
    | '#' :: f => f
    | _ => []
  some { scheme := scheme
         userinfo := userinfo
         hostname := host
         port := port
         pathname := if path == [] then ['/'] else path
         search := if query == [] then [] else '?' :: query
         hash := if frag == [] then [] else '#' :: frag }

/-- Split the authority into userinfo / host / port and validate the host,
as the WHATWG host parser does for the modelled fragment. -/
def parseAfterScheme (scheme rest : JStr) : Option URLRec :=
  let auth := rest.takeWhile (fun c => !isAuthorityEnd c)
  let tail := rest.dropWhile (fun c => !isAuthorityEnd c)
  let ui_hp :=
    match splitAtLast '@' auth with
    | some (u, hp) => (some u, hp)
    | none => ((none : Option JStr), auth)
  let hp :=
    match splitAtLast ':' ui_hp.2 with
    | some (h, p) => (h, some p)
    | none => (ui_hp.2, (none : Option JStr))
  if hp.1 == [] then none
  else if !(hp.1.all isHostOk) then none
  else
    match hp.2 with
    | some p => if p.all Char.isDigit then finishParse scheme ui_hp.1 hp.1 (some p) tail else none
    | none => finishParse scheme ui_hp.1 hp.1 none tail

/-- Model of JS `new URL(s)` on the authority-based absolute URLs the
crawler exercises: `none` models the `TypeError` the constructor throws
on input it cannot parse. -/
def parseURL (s : JStr) : Option URLRec :=
  let scheme := s.takeWhile (fun c => !(c == ':'))
  match s.dropWhile (fun c => !(c == ':')) with
  | ':' :: '/' :: '/' :: rest =>
    match scheme with
    | [] => none
    | c0 :: _ =>
      if !c0.isAlpha then none
      else if !(scheme.all isSchemeChar) then none
      else parseAfterScheme scheme rest
  | _ => none

/-- Model of `path.endsWith('/')`. -/
def endsWithSlash (l : JStr) : Bool :=
  match l.reverse with
  | '/' :: _ => true
  | _ => false

/-- Model of `path.slice(0, -1)` as applied when the path ends with `/`
(extensionally: drop the final character when it is a slash). -/
def stripTrailingSlash (l : JStr) : JStr :=
  match l.reverse with
  | '/' :: r => r.reverse
  | _ => l

/-- Serialization `protocol//hostname + path + search` built from parsed
components (the template literal on line 137 of the source). -/
def canonSerialize (p : URLRec) : JStr :=
  p.scheme ++ ':' :: '/' :: '/' :: (p.hostname ++ (stripTrailingSlash p.pathname ++ p.search))

/-- Source function `normalizeURL` (crawler.ts lines 125-141): parse, strip one trailing
slash from the pathname, and reserialize as
`protocol + "//" + hostname + path + search` — dropping userinfo, port
and fragment.  `none` models the `throw new Error('Invalid URL: ...')`
taken when `new URL` fails. -/
def normalizeURL (s : JStr) : Option JStr :=
  match parseURL s with
  | none => none
  | some u => some (canonSerialize u)

/-- Source function `isSameSubdomain` (crawler.ts lines 147-155): parse both strings and
compare `hostname`s; the `catch` branch returning `false` on any parse
failure is the wildcard match arm. -/
def isSameSubdomain (baseURL targetURL : JStr) : Bool :=
  match parseURL baseURL, parseURL targetURL with
  | some b, some t => b.hostname == t.hostname
  | _, _ => false

/-- First-occurrence de-duplication, the behaviour of
`[...new Set(xs)]` on JS strings (insertion order preserved). -/
def jsSetDedupAux (seen : List JStr) : List JStr → List JStr
  | [] => []
  | x :: xs => if x ∈ seen then jsSetDedupAux seen xs else x :: jsSetDedupAux (x :: seen) xs

/-- Model of `[...new Set(xs)]`. -/
def jsSetDedup (l : List JStr) : List JStr := jsSetDedupAux [] l

/-!
## The crawl scheduler (crawler.ts lines 216-304)

`fetchPage` followed by `getLinksFromHTML` is the crawler's only I/O; the
pair is abstracted as a `World` oracle: `w url = none` models `fetchPage`
returning `null` (network failure, non-2xx status or non-HTML content),
and `w url = some links` models a successful fetch whose extracted
absolute link strings are `links`.

Scheduler states sit between the atomic synchronous blocks of the JS
event loop (all shared-state mutation happens inside such blocks):
* `batch` — the URLs removed by `queue.splice(0, availableSlots)` whose
  `processURL` call has not yet run its synchronous prefix;
* `active` — the `(url, canonical)` pairs past the prefix (marked
  in-flight) and suspended at `await fetchPage(url)`;
* `queue`, `visited`, `inProgress`, `results` — the four shared
  structures of `crawl`.
-/

/-- Source interface `CrawlResult` (crawler.ts lines 117-120). -/
structure CrawlResult where
  url : JStr
  links : List JStr
deriving Repr, DecidableEq

/-- The fetch-and-extract oracle (`fetchPage` + `getLinksFromHTML`). -/
abbrev World := JStr → Option (List JStr)

/-- A scheduler state of one `crawl(startURL, options)` invocation. -/
structure MState where
  queue : List JStr
  visited : List JStr
  inProgress : List JStr
  results : List CrawlResult
  batch : List JStr
  active : List (JStr × JStr)
deriving Repr, DecidableEq

/-- State at the top of `processQueue`: the frontier seeded with the
start URL, everything else empty. -/
def initState (startURL : JStr) : MState :=
  { queue := [startURL], visited := [], inProgress := [], results := [],
    batch := [], active := [] }

/-- The synchronous prefix of `processURL(url)` (lines 252-265): compute
`normalizeURL(url)` — a failure here throws inside the async function,
rejecting its promise, and `Promise.allSettled` (line 240) absorbs the
rejection, so the state is simply left unchanged — then drop the URL if
its canonical form is already visited or in progress, drop it if it is
out of scope, and otherwise mark it in-flight and suspend at
`await fetchPage(url)` (becoming an `active` pair). -/
def admitOne (startURL : JStr) (s : MState) (u : JStr) : MState :=
  match normalizeURL u with
  | none => s
  | some c =>
    if c ∈ s.visited ∨ c ∈ s.inProgress then s
    else if !(isSameSubdomain startURL u) then s
    else { s with inProgress := s.inProgress ++ [c], active := s.active ++ [(u, c)] }

/-- The synchronous suffix of `processURL(url)` (lines 268-299), run when
the fetch settles.  On `fetchPage` returning `null`, record
`{url, links: []}`.  On HTML, normalize every extracted link (a
`normalizeURL` throw inside the `map` on line 278 lands in the `catch`,
which records `{url, links: []}`), record the de-duplicated canonical
links, and append every extracted raw link that passes
`isSameSubdomain(startURL, link)` to the frontier — with no visited or
in-flight check.  The `finally` adds the canonical to `visited` and
removes it from `inProgress`. -/
def completeOne (startURL : JStr) (w : World) (s : MState) (t : JStr × JStr) : MState :=
  match w t.1 with
  | none =>
    { s with results := s.results ++ [⟨t.2, []⟩],
             visited := s.visited ++ [t.2],
             inProgress := s.inProgress.erase t.2 }
  | some ls =>
    if ls.all (fun l => (normalizeURL l).isSome) then
      { s with results := s.results ++ [⟨t.2, jsSetDedup (ls.filterMap normalizeURL)⟩],
               queue := s.queue ++ ls.filter (fun l => isSameSubdomain startURL l),
               visited := s.visited ++ [t.2],
               inProgress := s.inProgress.erase t.2 }
    else
      { s with results := s.results ++ [⟨t.2, []⟩],
               visited := s.visited ++ [t.2],
               inProgress := s.inProgress.erase t.2 }

/-- Small-step relation of the scheduler loop (`processQueue`,
lines 228-250), with non-deterministic fetch-completion order.

* `round`: one iteration head of `while (queue.length > 0 ...)`: compute
  `availableSlots = maxConcurrency - inProgress.size` and remove that many
  URLs from the head of the frontier (`queue.splice(0, availableSlots)`).
  A new round starts only when the previous batch has fully settled
  (`await Promise.allSettled`), i.e. `batch` and `active` are empty.  The
  `setTimeout(rateLimitMs)` between rounds changes no state and is not
  modelled.
* `dispatch`: run the synchronous prefix of `processURL` for the next URL of
  the batch (the `.map(url => processURL(url))` on line 239 runs all
  prefixes before any fetch continuation can run).
* `complete`: any suspended fetch may settle next; run its synchronous
  suffix. -/
inductive Step (startURL : JStr) (w : World) (mc : Nat) : MState → MState → Prop where
  | round (s : MState) (h1 : s.batch = []) (h2 : s.active = []) (h3 : s.queue ≠ []) :
      Step startURL w mc s
        { s with batch := s.queue.take (mc - s.inProgress.length),
                 queue := s.queue.drop (mc - s.inProgress.length) }
  | dispatch (s : MState) (u : JStr) (rest : List JStr) (h : s.batch = u :: rest) :
      Step startURL w mc s (admitOne startURL { s with batch := rest } u)
  | complete (s : MState) (t : JStr × JStr) (hb : s.batch = []) (ht : t ∈ s.active) :
      Step startURL w mc s (completeOne startURL w { s with active := s.active.erase t } t)

/-- States reachable by the scheduler of `crawl startURL` under oracle
`w` and concurrency limit `mc`. -/
def Reachable (startURL : JStr) (w : World) (mc : Nat) (s : MState) : Prop :=
  Relation.ReflTransGen (Step startURL w mc) (initState startURL) s

/-- Deterministic interpreter step: the schedule in which fetches settle
in dispatch order (one legal run of the JS event loop).  `none` is the
terminal configuration: frontier, batch and in-flight all empty, i.e. the
`while` loop of `processQueue` exits and `crawl` resolves. -/
def stepD (startURL : JStr) (w : World) (mc : Nat) (s : MState) : Option MState :=
  match s.batch with
  | u :: rest => some (admitOne startURL { s with batch := rest } u)
  | [] =>
    match s.active with
    | t :: ts => some (completeOne startURL w { s with active := ts } t)
    | [] =>
      match s.queue with
      | [] => none
      | _ :: _ =>
        some { s with batch := s.queue.take (mc - s.inProgress.length),
                      queue := s.queue.drop (mc - s.inProgress.length) }

/-- Run `n` deterministic steps (stopping at the terminal state). -/
def runD (startURL : JStr) (w : World) (mc : Nat) : Nat → MState → MState
  | 0, s => s
  | n + 1, s =>
    match stepD startURL w mc s with
    | none => s
    | some s' => runD startURL w mc n s'

/-- The value of `crawl(startURL, options)` if the loop has exited within
`fuel` steps: the accumulated `results` array (line 303). -/
def crawlD (startURL : JStr) (w : World) (mc : Nat) (fuel : Nat) : Option (List CrawlResult) :=
  let fin := runD startURL w mc fuel (initState startURL)
  match stepD startURL w mc fin with
  | none => some fin.results
  | some _ => none

/-!
## A concrete two-page site used by the witnesses

Page `https://h/a` links to `https://h/b` and vice versa, so the second
page's links rediscover an already-visited page.
-/

def exStart : JStr := "https://h/a".toList

def exWorld : World := fun u =>
  if u = "https://h/a".toList then some ["https://h/b".toList]
  else if u = "https://h/b".toList then some ["https://h/a".toList]
  else none

/-- Invariants of every reachable scheduler state:
* `ip_eq`: the `inProgress` set is exactly the canonicals of the
  suspended fetches;
* `act_nodup`: no canonical has two concurrent fetches;
* `act_fresh`: an in-flight canonical is not yet visited;
* `res_nodup`: no canonical has two PageRecords;
* `res_iff`: a PageRecord exists exactly for the finalized (visited)
  canonicals;
* `cap`: in-flight fetches plus not-yet-dispatched batch members never
  exceed `maxConcurrency`. -/
structure SchedInv (mc : Nat) (s : MState) : Prop where
  ip_eq : s.inProgress = s.active.map Prod.snd
  act_nodup : (s.active.map Prod.snd).Nodup
  act_fresh : ∀ t ∈ s.active, t.2 ∉ s.visited
  res_nodup : (s.results.map CrawlResult.url).Nodup
  res_iff : ∀ c, c ∈ s.results.map CrawlResult.url ↔ c ∈ s.visited
  cap : s.inProgress.length + s.batch.length ≤ mc

/-!
## Termination (C9)

The finiteness hypothesis of the claim: a finite set `F` of raw URL
strings containing the start URL and closed under link discovery
(the reachable in-scope link graph).  The oracle being a total function
models the claim's assumption that every dispatched fetch completes.
-/

/-- Closure of `F` under link discovery: fetching any in-scope member
yields links inside `F` again. -/
def Closed (startURL : JStr) (w : World) (F : Finset JStr) : Prop :=
  ∀ u ∈ F, isSameSubdomain startURL u = true → ∀ l ∈ (w u).getD [], l ∈ F

/-- The canonical keys of the members of `F` — the finite universe the
visited set can grow into. -/
def canonSet (F : Finset JStr) : Finset JStr :=
  F.biUnion (fun u =>
    match normalizeURL u with
    | some c => {c}
    | none => ∅)

/-- Number of canonicals of the universe not yet visited (the primary
termination measure: every fetch completion shrinks it). -/
def unvisitedCount (F : Finset JStr) (s : MState) : Nat :=
  ((canonSet F).filter (fun c => c ∉ s.visited)).card

/-- Secondary measure: weighted pending work.  Admission moves queue
entries (weight 4) to the batch (weight 2); dispatch moves batch entries
to `active` (weight 1) or drops them; every non-completion step shrinks
it. -/
def stepWeight (s : MState) : Nat :=
  4 * s.queue.length + 2 * s.batch.length + s.active.length

/-- All raw strings the scheduler still holds lie inside `F`, and every
active pair is a genuinely admitted one. -/
structure GoodState (startURL : JStr) (F : Finset JStr) (s : MState) : Prop where
  gq : ∀ u ∈ s.queue, u ∈ F
  gb : ∀ u ∈ s.batch, u ∈ F
  ga : ∀ t ∈ s.active, t.1 ∈ F ∧ normalizeURL t.1 = some t.2 ∧
    isSameSubdomain startURL t.1 = true

/-- Structural facts that hold of every successfully parsed URL record;
exactly what reparsing the canonical serialization needs. -/
structure ParsedOK (p : URLRec) : Prop where
  scheme_shape : ∃ c0 r0, p.scheme = c0 :: r0 ∧ c0.isAlpha = true
  scheme_ok : ∀ c ∈ p.scheme, isSchemeChar c = true
  host_ne : p.hostname ≠ []
  host_ok : ∀ c ∈ p.hostname, isHostOk c = true
  path_shape : p.pathname = ['/'] ∨ ∃ r, p.pathname = '/' :: r
  path_ok : ∀ c ∈ p.pathname, (!(c == '?') && !(c == '#')) = true
  search_shape : p.search = [] ∨ ∃ qq, p.search = '?' :: qq ∧ qq ≠ [] ∧
    ∀ c ∈ qq, (!(c == '#')) = true

example : parseURL "https://h/a".toList =
    some { scheme := "https".toList, userinfo := none, hostname := "h".toList,
           port := none, pathname := "/a".toList, search := [], hash := [] } := by
  decide

example : normalizeURL "https://h/a/".toList = some "https://h/a".toList := by decide

example : normalizeURL "https://Example.com:8443/x?q=1#frag".toList =
    some "https://Example.com/x?q=1".toList := by decide

example : normalizeURL "http://".toList = none := by decide

example : isSameSubdomain "https://h/a".toList "https://h/b?q".toList = true := by decide

example : isSameSubdomain "https://h/a".toList "https://blog.h/a".toList = false := by decide

example : jsSetDedup ["a".toList, "b".toList, "a".toList] = ["a".toList, "b".toList] := by
  decide

/-- Each deterministic step is a legal `Step` (completion picks the head
of `active`; `List.erase` of the head is its tail). -/
theorem stepD_sound (startURL : JStr) (w : World) (mc : Nat) (s s' : MState)
    (h : stepD startURL w mc s = some s') : Step startURL w mc s s' := by
  obtain ⟨q, v, ip, r, b, a⟩ := s
  cases b with
  | cons u rest =>
    simp only [stepD] at h
    cases h
    exact Step.dispatch _ u rest rfl
  | nil =>
    cases a with
    | cons t ts =>
      simp only [stepD] at h
      cases h
      have hstep := @Step.complete startURL w mc
        ⟨q, v, ip, r, [], t :: ts⟩ t rfl (List.mem_cons_self t ts)
      rwa [show (t :: ts).erase t = ts from List.erase_cons_head t ts] at hstep
    | nil =>
      cases q with
      | nil => simp [stepD] at h
      | cons q0 qs =>
        simp only [stepD] at h
        cases h
        exact Step.round _ rfl rfl (by simp)

/-- Every state of a deterministic run is `Reachable`-from its start. -/
theorem runD_reachable_from (startURL : JStr) (w : World) (mc : Nat) (n : Nat) (s : MState) :
    Relation.ReflTransGen (Step startURL w mc) s (runD startURL w mc n s) := by
  induction n generalizing s with
  | zero => exact Relation.ReflTransGen.refl
  | succ n ih =>
    cases h : stepD startURL w mc s with
    | none =>
      have h1 : runD startURL w mc (n + 1) s = s := by simp [runD, h]
      rw [h1]
    | some s' =>
      have h1 : runD startURL w mc (n + 1) s = runD startURL w mc n s' := by
        simp [runD, h]
      rw [h1]
      exact Relation.ReflTransGen.head (stepD_sound startURL w mc s s' h) (ih s')

/-- Deterministic runs from the initial state are reachable. -/
theorem runD_reachable (startURL : JStr) (w : World) (mc : Nat) (n : Nat) :
    Reachable startURL w mc (runD startURL w mc n (initState startURL)) :=
  runD_reachable_from startURL w mc n (initState startURL)

/-!
## Scheduler invariants

`SchedInv` bundles the state invariants maintained by every scheduler
transition; all claim-level invariant theorems are projections of it.
-/

/-- Erasing an active pair erases exactly its canonical from the
projection, provided the canonicals are distinct. -/
theorem map_snd_erase (a : List (JStr × JStr)) (t : JStr × JStr)
    (ht : t ∈ a) (hnd : (a.map Prod.snd).Nodup) :
    (a.erase t).map Prod.snd = (a.map Prod.snd).erase t.2 := by
  induction a with
  | nil => cases ht
  | cons x xs ih =>
    by_cases hxt : x = t
    · subst hxt
      rw [List.erase_cons_head, List.map_cons, List.erase_cons_head]
    · have ht' : t ∈ xs := by
        cases List.mem_cons.mp ht with
        | inl h => exact absurd h.symm hxt
        | inr h => exact h
      have hnd' : (xs.map Prod.snd).Nodup := (List.nodup_cons.mp hnd).2
      have hx2 : x.2 ∉ xs.map Prod.snd := by
        simpa using (List.nodup_cons.mp hnd).1
      have hx2t2 : ¬(x.2 == t.2) = true := by
        intro hbeq
        exact hx2 (by
          have : x.2 = t.2 := by simpa using hbeq
          rw [this]
          exact List.mem_map.mpr ⟨t, ht', rfl⟩)
      have hxtb : ¬(x == t) = true := by simpa using hxt
      rw [List.erase_cons_tail hxtb, List.map_cons, List.map_cons,
        List.erase_cons_tail hx2t2, ih ht' hnd']

theorem schedInv_init (startURL : JStr) (mc : Nat) : SchedInv mc (initState startURL) := by
  refine ⟨rfl, List.nodup_nil, ?_, List.nodup_nil, ?_, ?_⟩
  · intro t ht; cases ht
  · intro c; simp [initState]
  · simp [initState]

/-- Preservation of the invariants by `admitOne` (the batch member has already
been popped into the state by the caller). -/
theorem schedInv_admitOne (startURL : JStr) (mc : Nat) (s : MState) (u : JStr)
    (hs : SchedInv mc s) (hcap : s.inProgress.length + s.batch.length + 1 ≤ mc) :
    SchedInv mc (admitOne startURL s u) := by
  cases hn : normalizeURL u with
  | none =>
    simp only [admitOne, hn]
    exact hs
  | some c =>
    simp only [admitOne, hn]
    by_cases hmem : c ∈ s.visited ∨ c ∈ s.inProgress
    · rw [if_pos hmem]
      exact hs
    · rw [if_neg hmem]
      by_cases hscope : isSameSubdomain startURL u = true

      · simp only [hscope, Bool.not_true, Bool.false_eq_true, if_false]
        have hcnotip : c ∉ s.active.map Prod.snd := by
          rw [← hs.ip_eq]; exact fun h => hmem (Or.inr h)
        refine ⟨?_, ?_, ?_, hs.res_nodup, hs.res_iff, ?_⟩
        · simp [hs.ip_eq]
        · simp only [List.map_append, List.map_cons, List.map_nil]
          rw [List.nodup_append]
          refine ⟨hs.act_nodup, List.nodup_singleton c, ?_⟩
          intro x hx hx'
          have hxc : x = c := by simpa using hx'
          subst hxc
          exact hcnotip hx
        · intro t ht
          rcases List.mem_append.mp ht with h | h
          · exact hs.act_fresh t h
          · have htc : t = (u, c) := by simpa using h
            subst htc
            exact fun hv => hmem (Or.inl hv)
        · simp only [List.length_append, List.length_cons, List.length_nil]
          omega
      · have hscope' : isSameSubdomain startURL u = false := by
          cases hsc : isSameSubdomain startURL u
          · rfl
          · exact absurd hsc hscope
        simp only [hscope', Bool.not_false, if_true]
        exact hs

/-- Preservation of the invariants by `completeOne` (the settled pair has already
been erased from `active` by the caller). -/
theorem schedInv_completeOne (startURL : JStr) (w : World) (mc : Nat) (s : MState)
    (t : JStr × JStr) (hs : SchedInv mc s) (ht : t ∈ s.active) (hb : s.batch = []) :
    SchedInv mc (completeOne startURL w { s with active := s.active.erase t } t) := by
  have hipErase : (s.inProgress.erase t.2) = (s.active.erase t).map Prod.snd := by
    rw [hs.ip_eq, map_snd_erase s.active t ht hs.act_nodup]
  have hactnd : ((s.active.erase t).map Prod.snd).Nodup := by
    rw [map_snd_erase s.active t ht hs.act_nodup]
    exact hs.act_nodup.erase t.2
  have hfresh : t.2 ∉ s.visited := hs.act_fresh t ht
  have hactive_nd : s.active.Nodup := hs.act_nodup.of_map
  have hfresh' : ∀ t' ∈ s.active.erase t, t'.2 ∉ s.visited ++ [t.2] := by
    intro t' ht'
    have ht'mem : t' ∈ s.active := List.mem_of_mem_erase ht'
    have ht'ne : t' ≠ t := (hactive_nd.mem_erase_iff.mp ht').1
    have hsndne : t'.2 ≠ t.2 := by
      intro he
      exact ht'ne (List.inj_on_of_nodup_map hs.act_nodup ht'mem ht he)
    intro hvm
    rcases List.mem_append.mp hvm with h | h
    · exact hs.act_fresh t' ht'mem h
    · simp at h; exact hsndne h
  have hresnd : ((s.results.map CrawlResult.url) ++ [t.2]).Nodup := by
    rw [List.nodup_append]
    refine ⟨hs.res_nodup, List.nodup_singleton _, ?_⟩
    intro x hx hx'
    have hxt : x = t.2 := by simpa using hx'
    rw [hxt] at hx
    exact hfresh ((hs.res_iff t.2).mp hx)
  have hresiff : ∀ (L : List JStr) (c : JStr),
      c ∈ (s.results ++ [CrawlResult.mk t.2 L]).map CrawlResult.url ↔ c ∈ s.visited ++ [t.2] := by
    intro L c
    simp only [List.map_append, List.map_cons, List.map_nil, List.mem_append]
    constructor
    · rintro (h | h)
      · exact Or.inl ((hs.res_iff c).mp h)
      · exact Or.inr h
    · rintro (h | h)
      · exact Or.inl ((hs.res_iff c).mpr h)
      · exact Or.inr h
  have hcap : (s.inProgress.erase t.2).length + ([] : List JStr).length ≤ mc := by
    have h1 := List.length_erase_le t.2 s.inProgress
    have h2 := hs.cap
    simp only [List.length_nil]
    omega
  unfold completeOne
  cases hw : w t.1 with
  | none =>
    exact ⟨by simpa [hb] using hipErase, by simpa using hactnd, by simpa using hfresh',
      by simpa using hresnd, by simpa [hb] using hresiff [], by simpa [hb] using hcap⟩
  | some ls =>
    by_cases hall : ls.all (fun l => (normalizeURL l).isSome)
    · simp only [hall, if_true]
      exact ⟨by simpa [hb] using hipErase, by simpa using hactnd, by simpa using hfresh',
        by simpa using hresnd,
        by simpa [hb] using hresiff (jsSetDedup (ls.filterMap normalizeURL)),
        by simpa [hb] using hcap⟩
    · simp only [hall, if_false]
      exact ⟨by simpa [hb] using hipErase, by simpa using hactnd, by simpa using hfresh',
        by simpa using hresnd, by simpa [hb] using hresiff [], by simpa [hb] using hcap⟩

/-- Every scheduler transition preserves the invariants. -/
theorem schedInv_step (startURL : JStr) (w : World) (mc : Nat) (s s' : MState)
    (h : Step startURL w mc s s') (hs : SchedInv mc s) : SchedInv mc s' := by
  cases h with
  | round h1 h2 h3 =>
    have hip : s.inProgress = [] := by rw [hs.ip_eq, h2]; rfl
    refine ⟨hs.ip_eq, hs.act_nodup, hs.act_fresh, hs.res_nodup, hs.res_iff, ?_⟩
    simp only [hip, List.length_nil, Nat.zero_add, List.length_take]
    omega
  | dispatch u rest hbatch =>
    refine schedInv_admitOne startURL mc _ u
      ⟨hs.ip_eq, hs.act_nodup, hs.act_fresh, hs.res_nodup, hs.res_iff, ?_⟩ ?_
    · have := hs.cap
      simp only [hbatch, List.length_cons] at this
      simp only [List.length_nil]
      omega
    · have := hs.cap
      simp only [hbatch, List.length_cons] at this
      simpa using this
  | complete t hb htmem =>
    exact schedInv_completeOne startURL w mc s t hs htmem hb

/-- The invariants hold in every reachable state. -/
theorem schedInv_reachable (startURL : JStr) (w : World) (mc : Nat) (s : MState)
    (h : Reachable startURL w mc s) : SchedInv mc s := by
  induction h with
  | refl => exact schedInv_init startURL mc
  | tail _ hstep ih => exact schedInv_step startURL w mc _ _ hstep ih

/-- C4: at every reachable state of a crawl, no canonical URL is both
visited and in-flight (each canonical is in exactly one of
{not yet seen, in-flight, visited}), and the in-flight canonicals are
pairwise distinct, so the same canonical URL is never fetched twice
concurrently.  States are those between the atomic synchronous blocks of
the single-threaded event loop — the only observable instants, since all
mutation of `visited`/`inProgress` happens inside such blocks. -/
theorem claim_C4_state_exclusive (startURL : JStr) (w : World) (mc : Nat) (s : MState)
    (h : Reachable startURL w mc s) :
    (∀ c, ¬(c ∈ s.visited ∧ c ∈ s.inProgress)) ∧ (s.active.map Prod.snd).Nodup := by
  have hs := schedInv_reachable startURL w mc s h
  constructor
  · rintro c ⟨hv, hip⟩
    rw [hs.ip_eq] at hip
    obtain ⟨t, htmem, rfl⟩ := List.mem_map.mp hip
    exact hs.act_fresh t htmem hv
  · exact hs.act_nodup

/-- Witness for C4 at a concrete reachable state (after the round and
admission steps of the first batch, one fetch of `exWorld` is in
flight). -/
theorem claim_C4_witness :
    Reachable exStart exWorld 5 (runD exStart exWorld 5 2 (initState exStart)) ∧
    ((∀ c, ¬(c ∈ (runD exStart exWorld 5 2 (initState exStart)).visited ∧
        c ∈ (runD exStart exWorld 5 2 (initState exStart)).inProgress)) ∧
      ((runD exStart exWorld 5 2 (initState exStart)).active.map Prod.snd).Nodup) :=
  ⟨runD_reachable exStart exWorld 5 2,
    claim_C4_state_exclusive exStart exWorld 5 _ (runD_reachable exStart exWorld 5 2)⟩

/-- C5: at every reachable state of a crawl with a positive
`maxConcurrency`, the in-flight set holds at most `maxConcurrency`
canonicals: each admission round removes at most
`maxConcurrency - |in-flight|` URLs from the head of the frontier
(`queue.splice(0, availableSlots)`), and only admitted URLs become
in-flight.  (`rateLimitMs` only delays rounds and has no state effect.) -/
theorem claim_C5_concurrency_bound (startURL : JStr) (w : World) (mc : Nat) (s : MState)
    (hmc : 1 ≤ mc) (h : Reachable startURL w mc s) : s.inProgress.length ≤ mc := by
  have hs := schedInv_reachable startURL w mc s h
  have := hs.cap
  omega

/-- Witness for C5 at a concrete reachable state with a non-empty
in-flight set. -/
theorem claim_C5_witness :
    1 ≤ 5 ∧ Reachable exStart exWorld 5 (runD exStart exWorld 5 2 (initState exStart)) ∧
    (runD exStart exWorld 5 2 (initState exStart)).inProgress.length ≤ 5 :=
  ⟨by decide, runD_reachable exStart exWorld 5 2,
    claim_C5_concurrency_bound exStart exWorld 5 _ (by decide)
      (runD_reachable exStart exWorld 5 2)⟩

/-- C3: every crawl invocation that resolves returns a PageRecord list
with no two records of the same canonical URL, and with exactly one
record per canonical URL that was dispatched to the fetcher — the
visited set of the final state (failed fetches included; they carry an
empty link list by `completeOne`). -/
theorem claim_C3_dedup_complete (startURL : JStr) (w : World) (mc fuel : Nat)
    (rs : List CrawlResult) (h : crawlD startURL w mc fuel = some rs) :
    (rs.map CrawlResult.url).Nodup ∧
    ∀ c, c ∈ rs.map CrawlResult.url ↔
      c ∈ (runD startURL w mc fuel (initState startURL)).visited := by
  have hs := schedInv_reachable startURL w mc _ (runD_reachable startURL w mc fuel)
  simp only [crawlD] at h
  cases hstep : stepD startURL w mc (runD startURL w mc fuel (initState startURL)) with
  | none =>
    rw [hstep] at h
    cases h
    exact ⟨hs.res_nodup, hs.res_iff⟩
  | some s' =>
    rw [hstep] at h
    cases h

/-- Witness for C3: the two-page site crawl resolves within 9 steps with
exactly one record per page. -/
theorem claim_C3_witness :
    crawlD exStart exWorld 5 9 =
      some [CrawlResult.mk "https://h/a".toList ["https://h/b".toList],
            CrawlResult.mk "https://h/b".toList ["https://h/a".toList]] ∧
    (([CrawlResult.mk "https://h/a".toList ["https://h/b".toList],
       CrawlResult.mk "https://h/b".toList ["https://h/a".toList]].map CrawlResult.url).Nodup ∧
     ∀ c, c ∈ [CrawlResult.mk "https://h/a".toList ["https://h/b".toList],
               CrawlResult.mk "https://h/b".toList ["https://h/a".toList]].map CrawlResult.url ↔
       c ∈ (runD exStart exWorld 5 9 (initState exStart)).visited) :=
  ⟨by decide, claim_C3_dedup_complete exStart exWorld 5 9 _ (by decide)⟩

/-- C7: `isSameSubdomain` returns `true` iff both strings parse as
absolute URLs and their parsed hosts are identical (plain equality — no
wildcard or subdomain matching), and hence `false` on any parse failure
of either argument; it is a total Lean function (the source's
`try`/`catch` never lets an exception escape), so it is total and
side-effect-free. -/
theorem claim_C7_scope_check (b t : JStr) :
    isSameSubdomain b t = true ↔
    ∃ pb pt, parseURL b = some pb ∧ parseURL t = some pt ∧ pb.hostname = pt.hostname := by
  cases hb : parseURL b with
  | none =>
    simp only [isSameSubdomain, hb]
    constructor
    · intro h; cases h
    · rintro ⟨pb, pt, hpb, _, _⟩; cases hpb
  | some pb =>
    cases ht : parseURL t with
    | none =>
      simp only [isSameSubdomain, hb, ht]
      constructor
      · intro h; cases h
      · rintro ⟨pb', pt, _, hpt, _⟩; cases hpt
    | some pt =>
      simp only [isSameSubdomain, hb, ht, beq_iff_eq]
      constructor
      · intro h; exact ⟨pb, pt, rfl, rfl, h⟩
      · rintro ⟨pb', pt', hpb', hpt', hh⟩
        cases hpb'; cases hpt'; exact hh

/-- Counterexample to C1: `crawl` does NOT fail on a malformed start
URL.  `new URL("http://")` throws (empty host), so the spec says the
whole call must reject; but the throw happens inside the async
`processURL`, whose rejected promise is absorbed by
`Promise.allSettled`, so the crawl resolves normally — with an empty
record list. -/
theorem claim_C1_counterexample :
    parseURL "http://".toList = none ∧
    crawlD "http://".toList exWorld 5 2 = some [] := by decide

/-- C1 (amended): `crawl` never fails, not even for a malformed
`startURL`: the `normalizeURL` throw inside `processURL` rejects only
that promise, `Promise.allSettled` absorbs the rejection, and the crawl
resolves with an empty PageRecord list after the single two-step round
(admit and drop).  Downstream per-URL failures are likewise recorded in
PageRecords (`completeOne`), never raised. -/
theorem claim_C1_malformed_start_resolves (start : JStr) (w : World) (mc : Nat)
    (hmc : 1 ≤ mc) (hbad : parseURL start = none) :
    crawlD start w mc 2 = some [] := by
  obtain ⟨k, rfl⟩ : ∃ k, mc = k + 1 := ⟨mc - 1, by omega⟩
  have hnorm : normalizeURL start = none := by
    simp only [normalizeURL, hbad]
  simp [crawlD, runD, stepD, initState, admitOne, hnorm]

/-- Witness for the amended C1 at a concrete malformed start URL. -/
theorem claim_C1_witness :
    1 ≤ 5 ∧ parseURL "http:".toList = none ∧
    crawlD "http:".toList exWorld 5 2 = some [] :=
  ⟨by decide, by decide,
    claim_C1_malformed_start_resolves "http:".toList exWorld 5 (by decide) (by decide)⟩

/-- Counterexample to C2: an admitted frontier entry that fails
canonicalization is NOT recorded as a failed PageRecord and NOT
finalized.  `"http://bad host"` fails to parse (space in host); the
crawl seeded with it completes with an empty result list and an empty
visited set — no PageRecord was produced for the attempt. -/
theorem claim_C2_counterexample :
    normalizeURL "http://bad host".toList = none ∧
    crawlD "http://bad host".toList exWorld 5 2 = some [] ∧
    (runD "http://bad host".toList exWorld 5 2
      (initState "http://bad host".toList)).visited = [] := by decide

/-- C2 (amended): an admitted frontier entry whose string fails
canonicalization is silently dropped — the `processURL` rejection is
absorbed by `Promise.allSettled` — with no PageRecord, no finalization
and no other state change, and the scheduler continues with the rest of
the batch rather than aborting.  (Discovered links always canonicalize,
since appending them required `isSameSubdomain`, hence a successful
parse; only the start URL can be such an entry.) -/
theorem claim_C2_invalid_entry_dropped (startURL : JStr) (w : World) (mc : Nat)
    (s : MState) (u : JStr) (rest : List JStr) (hb : s.batch = u :: rest)
    (hbad : normalizeURL u = none) :
    stepD startURL w mc s = some { s with batch := rest } := by
  obtain ⟨q, v, ip, r, b, a⟩ := s
  simp only at hb
  subst hb
  simp [stepD, admitOne, hbad]

/-- Witness for the amended C2 on a concrete batch. -/
theorem claim_C2_witness :
    (MState.mk [] [] [] [] ["http://bad host".toList] []).batch =
      "http://bad host".toList :: [] ∧
    normalizeURL "http://bad host".toList = none ∧
    stepD exStart exWorld 5 (MState.mk [] [] [] [] ["http://bad host".toList] []) =
      some (MState.mk [] [] [] [] [] []) :=
  ⟨rfl, by decide,
    claim_C2_invalid_entry_dropped exStart exWorld 5
      (MState.mk [] [] [] [] ["http://bad host".toList] [])
      "http://bad host".toList [] rfl (by decide)⟩

/-- Counterexample to C8: a link IS appended to the frontier even when
its canonical form is already in the Visited set at append time.  In the
two-page site `a ↔ b`: after five steps page `a` is visited, page `b`'s
fetch is the only pending work and the frontier is empty; the sixth step
(completing `b`) appends `b`'s link to `a` to the frontier although
`a`'s canonical has long been visited (the code checks only
`isSameSubdomain`, crawler.ts lines 288-292). -/
theorem claim_C8_counterexample :
    "https://h/a".toList ∈ (runD exStart exWorld 5 5 (initState exStart)).visited ∧
    (runD exStart exWorld 5 5 (initState exStart)).queue = [] ∧
    (runD exStart exWorld 5 6 (initState exStart)).queue = ["https://h/a".toList] := by
  decide

/-- C8 (amended): whenever links of a successfully fetched page are
appended to the frontier, the appended elements are the original raw
(non-canonical) link strings, and a link is appended exactly when
`inScope(startURL, link)` holds — with NO lookup against the Visited or
In-flight sets at append time; de-duplication is deferred to the next
admission's `processURL` prefix. -/
theorem claim_C8_append_filter (startURL : JStr) (w : World) (s : MState)
    (t : JStr × JStr) (ls : List JStr) (hw : w t.1 = some ls)
    (hall : ls.all (fun l => (normalizeURL l).isSome) = true) :
    (completeOne startURL w s t).queue =
      s.queue ++ ls.filter (fun l => isSameSubdomain startURL l) := by
  simp [completeOne, hw, hall]

/-- Witness for the amended C8: completing page `b` of the two-page site
appends exactly its raw in-scope links. -/
theorem claim_C8_witness :
    exWorld "https://h/b".toList = some ["https://h/a".toList] ∧
    (["https://h/a".toList].all (fun l => (normalizeURL l).isSome)) = true ∧
    (completeOne exStart exWorld (initState exStart)
        ("https://h/b".toList, "https://h/b".toList)).queue =
      (initState exStart).queue ++
        ["https://h/a".toList].filter (fun l => isSameSubdomain exStart l) :=
  ⟨by decide, by decide,
    claim_C8_append_filter exStart exWorld (initState exStart)
      ("https://h/b".toList, "https://h/b".toList) ["https://h/a".toList]
      (by decide) (by decide)⟩

theorem goodState_init (startURL : JStr) (F : Finset JStr) (h : startURL ∈ F) :
    GoodState startURL F (initState startURL) := by
  refine ⟨?_, ?_, ?_⟩
  · intro u hu
    have : u = startURL := by simpa [initState] using hu
    rwa [this]
  · intro u hu; simp [initState] at hu
  · intro t ht; simp [initState] at ht

/-- Field behaviour of `admitOne`: it only moves data between the bookkeeping fields: queue,
visited and results are untouched, and at most one pair becomes
active. -/
theorem admitOne_fields (startURL : JStr) (s : MState) (u : JStr) :
    (admitOne startURL s u).queue = s.queue ∧
    (admitOne startURL s u).visited = s.visited ∧
    (admitOne startURL s u).batch = s.batch ∧
    (admitOne startURL s u).active.length ≤ s.active.length + 1 := by
  cases hn : normalizeURL u with
  | none => simp [admitOne, hn]
  | some c =>
    by_cases hmem : c ∈ s.visited ∨ c ∈ s.inProgress
    · simp [admitOne, hn, hmem]
    · by_cases hscope : isSameSubdomain startURL u = true
      · simp [admitOne, hn, hmem, hscope]
      · have hscope' : isSameSubdomain startURL u = false := by
          cases hsc : isSameSubdomain startURL u
          · rfl
          · exact absurd hsc hscope
        simp [admitOne, hn, hmem, hscope']

/-- Field behaviour of `completeOne`: one canonical is finalized, the
queue only grows by in-scope raw links of the fetched page. -/
theorem completeOne_fields (startURL : JStr) (w : World) (s : MState) (t : JStr × JStr) :
    (completeOne startURL w s t).visited = s.visited ++ [t.2] ∧
    (completeOne startURL w s t).batch = s.batch ∧
    (completeOne startURL w s t).active = s.active ∧
    (∀ l ∈ (completeOne startURL w s t).queue, l ∈ s.queue ∨ l ∈ (w t.1).getD []) := by
  cases hw : w t.1 with
  | none => simp [completeOne, hw]
  | some ls =>
    by_cases hall : ls.all (fun l => (normalizeURL l).isSome) = true
    · refine ⟨by simp [completeOne, hw, hall], by simp [completeOne, hw, hall],
        by simp [completeOne, hw, hall], ?_⟩
      intro l hl
      simp only [completeOne, hw, hall, if_true, List.mem_append] at hl
      rcases hl with h | h
      · exact Or.inl h
      · exact Or.inr (by simpa using List.mem_of_mem_filter h)
    · have hall' : (ls.all fun l => (normalizeURL l).isSome) = false := by
        cases hq : ls.all (fun l => (normalizeURL l).isSome)
        · rfl
        · exact absurd hq hall
      refine ⟨by simp [completeOne, hw, hall'], by simp [completeOne, hw, hall'],
        by simp [completeOne, hw, hall'], ?_⟩
      intro l hl
      simp only [completeOne, hw, hall', Bool.false_eq_true, if_false] at hl
      exact Or.inl hl

/-- Every deterministic step preserves `GoodState`. -/
theorem goodState_step (startURL : JStr) (w : World) (mc : Nat) (F : Finset JStr)
    (s s' : MState) (hC : Closed startURL w F) (hg : GoodState startURL F s)
    (hstep : stepD startURL w mc s = some s') : GoodState startURL F s' := by
  obtain ⟨q, v, ip, r, b, a⟩ := s
  cases b with
  | cons u rest =>
    simp only [stepD] at hstep
    cases hstep
    have hgb := hg.gb
    simp only [List.mem_cons] at hgb
    cases hn : normalizeURL u with
    | none =>
      simp only [admitOne, hn]
      exact ⟨hg.gq, fun x hx => hgb x (Or.inr hx), hg.ga⟩
    | some c =>
      simp only [admitOne, hn]
      by_cases hmem : c ∈ v ∨ c ∈ ip
      · rw [if_pos hmem]
        exact ⟨hg.gq, fun x hx => hgb x (Or.inr hx), hg.ga⟩
      · rw [if_neg hmem]
        by_cases hscope : isSameSubdomain startURL u = true
        · simp only [hscope, Bool.not_true, Bool.false_eq_true, if_false]
          refine ⟨hg.gq, fun x hx => hgb x (Or.inr hx), ?_⟩
          intro t ht
          rcases List.mem_append.mp ht with h | h
          · exact hg.ga t h
          · have : t = (u, c) := by simpa using h
            subst this
            exact ⟨hgb u (Or.inl rfl), hn, hscope⟩
        · have hscope' : isSameSubdomain startURL u = false := by
            cases hsc : isSameSubdomain startURL u
            · rfl
            · exact absurd hsc hscope
          simp only [hscope', Bool.not_false, if_true]
          exact ⟨hg.gq, fun x hx => hgb x (Or.inr hx), hg.ga⟩
  | nil =>
    cases a with
    | cons t ts =>
      simp only [stepD] at hstep
      cases hstep
      obtain ⟨htF, htn, hts⟩ := hg.ga t (List.mem_cons_self t ts)
      have hfields := completeOne_fields startURL w
        (MState.mk q v ip r [] ts) t
      refine ⟨?_, ?_, ?_⟩
      · intro l hl
        rcases hfields.2.2.2 l hl with h | h
        · exact hg.gq l h
        · exact hC t.1 htF hts l h
      · rw [hfields.2.1]
        intro x hx
        simp at hx
      · rw [hfields.2.2.1]
        intro x hx
        exact hg.ga x (List.mem_cons_of_mem t hx)
    | nil =>
      cases q with
      | nil => simp [stepD] at hstep
      | cons q0 qs =>
        simp only [stepD] at hstep
        cases hstep
        refine ⟨?_, ?_, ?_⟩
        · intro u hu
          exact hg.gq u (List.drop_subset _ _ hu)
        · intro u hu
          exact hg.gq u (List.take_subset _ _ hu)
        · intro t ht
          exact hg.ga t ht

/-- Finalizing a fresh canonical of the universe strictly shrinks the
unvisited part. -/
theorem unvisited_shrink (F : Finset JStr) (v : List JStr) (c : JStr)
    (hc : c ∈ canonSet F) (hnv : c ∉ v) :
    ((canonSet F).filter (fun x => x ∉ v ++ [c])).card <
    ((canonSet F).filter (fun x => x ∉ v)).card := by
  apply Finset.card_lt_card
  have hsub : (canonSet F).filter (fun x => x ∉ v ++ [c]) ⊆
      (canonSet F).filter (fun x => x ∉ v) := by
    intro x hx
    rw [Finset.mem_filter] at hx ⊢
    refine ⟨hx.1, ?_⟩
    intro hxv
    exact hx.2 (List.mem_append.mpr (Or.inl hxv))
  rw [Finset.ssubset_iff_of_subset hsub]
  refine ⟨c, ?_, ?_⟩
  · rw [Finset.mem_filter]; exact ⟨hc, hnv⟩
  · rw [Finset.mem_filter]
    intro hmem
    exact hmem.2 (List.mem_append.mpr (Or.inr (List.mem_singleton.mpr rfl)))

/-- Every deterministic step either finalizes a fresh canonical of the
universe (primary measure drops) or strictly shrinks the pending-work
weight. -/
theorem stepD_decrease (startURL : JStr) (w : World) (mc : Nat) (F : Finset JStr)
    (s s' : MState) (hmc : 1 ≤ mc) (hg : GoodState startURL F s) (hs : SchedInv mc s)
    (hstep : stepD startURL w mc s = some s') :
    unvisitedCount F s' < unvisitedCount F s ∨
    (unvisitedCount F s' = unvisitedCount F s ∧ stepWeight s' < stepWeight s) := by
  obtain ⟨q, v, ip, r, b, a⟩ := s
  cases b with
  | cons u rest =>
    simp only [stepD] at hstep
    cases hstep
    right
    have hfld := admitOne_fields startURL (MState.mk q v ip r rest a) u
    constructor
    · simp only [unvisitedCount, hfld.2.1]
    · simp only [stepWeight, hfld.1, hfld.2.2.1]
      have hact : (admitOne startURL (MState.mk q v ip r rest a) u).active.length ≤
          a.length + 1 := hfld.2.2.2
      simp only [List.length_cons]
      omega
  | nil =>
    cases a with
    | cons t ts =>
      simp only [stepD] at hstep
      cases hstep
      left
      have hfld := completeOne_fields startURL w (MState.mk q v ip r [] ts) t
      obtain ⟨htF, htn, hts⟩ := hg.ga t (List.mem_cons_self t ts)
      have hfresh : t.2 ∉ v := hs.act_fresh t (List.mem_cons_self t ts)
      have hcm : t.2 ∈ canonSet F := by
        rw [canonSet, Finset.mem_biUnion]
        exact ⟨t.1, htF, by simp [htn]⟩
      simp only [unvisitedCount, hfld.1]
      exact unvisited_shrink F v t.2 hcm hfresh
    | nil =>
      cases q with
      | nil => simp [stepD] at hstep
      | cons q0 qs =>
        simp only [stepD] at hstep
        cases hstep
        right
        have hip : ip = [] := by
          have := hs.ip_eq
          simpa using this
        subst hip
        refine ⟨rfl, ?_⟩
        simp only [stepWeight, List.length_drop, List.length_take, List.length_cons,
          List.length_nil]
        omega

/-- Unfolding one deterministic step of a run. -/
theorem runD_succ_of_some (startURL : JStr) (w : World) (mc : Nat) {s s' : MState}
    (h : stepD startURL w mc s = some s') (n : Nat) :
    runD startURL w mc (n + 1) s = runD startURL w mc n s' := by
  simp [runD, h]

/-- The terminal configuration has empty batch, active set and
frontier. -/
theorem stepD_none_inv (startURL : JStr) (w : World) (mc : Nat) (s : MState)
    (h : stepD startURL w mc s = none) : s.batch = [] ∧ s.active = [] ∧ s.queue = [] := by
  obtain ⟨q, v, ip, r, b, a⟩ := s
  cases b with
  | cons u rest => simp [stepD] at h
  | nil =>
    cases a with
    | cons t ts => simp [stepD] at h
    | nil =>
      cases q with
      | cons q0 qs => simp [stepD] at h
      | nil => exact ⟨rfl, rfl, rfl⟩

/-- Well-founded descent on (unvisited canonicals, pending weight):
from any good state the deterministic scheduler reaches the terminal
configuration. -/
theorem crawl_terminates_aux (startURL : JStr) (w : World) (mc : Nat) (F : Finset JStr)
    (hC : Closed startURL w F) (hmc : 1 ≤ mc) :
    ∀ n1 n2 s, GoodState startURL F s → SchedInv mc s →
      unvisitedCount F s ≤ n1 → stepWeight s ≤ n2 →
      ∃ n, stepD startURL w mc (runD startURL w mc n s) = none := by
  intro n1
  induction n1 with
  | zero =>
    intro n2
    induction n2 with
    | zero =>
      intro s hg hs h1 h2
      cases hstep : stepD startURL w mc s with
      | none => exact ⟨0, hstep⟩
      | some s' =>
        rcases stepD_decrease startURL w mc F s s' hmc hg hs hstep with h | ⟨_, h⟩ <;> omega
    | succ n2 ih2 =>
      intro s hg hs h1 h2
      cases hstep : stepD startURL w mc s with
      | none => exact ⟨0, hstep⟩
      | some s' =>
        have hg' := goodState_step startURL w mc F s s' hC hg hstep
        have hs' := schedInv_step startURL w mc s s' (stepD_sound startURL w mc s s' hstep) hs
        rcases stepD_decrease startURL w mc F s s' hmc hg hs hstep with h | ⟨heq, hlt⟩
        · omega
        · obtain ⟨n, hn⟩ := ih2 s' hg' hs' (by omega) (by omega)
          exact ⟨n + 1, by rw [runD_succ_of_some startURL w mc hstep n]; exact hn⟩
  | succ n1 ih1 =>
    intro n2
    induction n2 with
    | zero =>
      intro s hg hs h1 h2
      cases hstep : stepD startURL w mc s with
      | none => exact ⟨0, hstep⟩
      | some s' =>
        have hg' := goodState_step startURL w mc F s s' hC hg hstep
        have hs' := schedInv_step startURL w mc s s' (stepD_sound startURL w mc s s' hstep) hs
        rcases stepD_decrease startURL w mc F s s' hmc hg hs hstep with h | ⟨heq, hlt⟩
        · obtain ⟨n, hn⟩ := ih1 (stepWeight s') s' hg' hs' (by omega) (Nat.le_refl _)
          exact ⟨n + 1, by rw [runD_succ_of_some startURL w mc hstep n]; exact hn⟩
        · omega
    | succ n2 ih2 =>
      intro s hg hs h1 h2
      cases hstep : stepD startURL w mc s with
      | none => exact ⟨0, hstep⟩
      | some s' =>
        have hg' := goodState_step startURL w mc F s s' hC hg hstep
        have hs' := schedInv_step startURL w mc s s' (stepD_sound startURL w mc s s' hstep) hs
        rcases stepD_decrease startURL w mc F s s' hmc hg hs hstep with h | ⟨heq, hlt⟩
        · obtain ⟨n, hn⟩ := ih1 (stepWeight s') s' hg' hs' (by omega) (Nat.le_refl _)
          exact ⟨n + 1, by rw [runD_succ_of_some startURL w mc hstep n]; exact hn⟩
        · obtain ⟨n, hn⟩ := ih2 s' hg' hs' (by omega) (by omega)
          exact ⟨n + 1, by rw [runD_succ_of_some startURL w mc hstep n]; exact hn⟩

/-- C9: for a start URL whose reachable in-scope link graph is finite
(a finite, link-closed set `F` of raw URLs containing the start URL),
and with every dispatched fetch completing (the oracle is total), the
crawl terminates: the scheduler reaches the configuration with empty
frontier and empty in-flight set, and `crawl` resolves with the
accumulated PageRecord list. -/
theorem claim_C9_termination (startURL : JStr) (w : World) (mc : Nat) (F : Finset JStr)
    (hmc : 1 ≤ mc) (hstart : startURL ∈ F) (hC : Closed startURL w F) :
    ∃ n, (runD startURL w mc n (initState startURL)).queue = [] ∧
      (runD startURL w mc n (initState startURL)).inProgress = [] ∧
      crawlD startURL w mc n = some (runD startURL w mc n (initState startURL)).results := by
  obtain ⟨n, hn⟩ := crawl_terminates_aux startURL w mc F hC hmc
    (unvisitedCount F (initState startURL)) (stepWeight (initState startURL))
    (initState startURL) (goodState_init startURL F hstart) (schedInv_init startURL mc)
    (Nat.le_refl _) (Nat.le_refl _)
  have hinv := schedInv_reachable startURL w mc _ (runD_reachable startURL w mc n)
  obtain ⟨hb, ha, hq⟩ := stepD_none_inv startURL w mc _ hn
  refine ⟨n, hq, ?_, ?_⟩
  · rw [hinv.ip_eq, ha]
    rfl
  · simp [crawlD, hn]

/-- Witness for C9 on the concrete two-page site, whose reachable link
set is the two raw URLs. -/
theorem claim_C9_witness :
    1 ≤ 5 ∧ exStart ∈ ({exStart, "https://h/b".toList} : Finset JStr) ∧
    Closed exStart exWorld ({exStart, "https://h/b".toList} : Finset JStr) ∧
    ∃ n, (runD exStart exWorld 5 n (initState exStart)).queue = [] ∧
      (runD exStart exWorld 5 n (initState exStart)).inProgress = [] ∧
      crawlD exStart exWorld 5 n = some (runD exStart exWorld 5 n (initState exStart)).results :=
  ⟨by decide, by decide, by unfold Closed; decide,
    claim_C9_termination exStart exWorld 5 ({exStart, "https://h/b".toList} : Finset JStr)
      (by decide) (by decide) (by unfold Closed; decide)⟩

/-!
## Canonicalizer correctness (C6, C10)

The canonical serialization reparses to the expected components: no
userinfo, no port, the stripped path (defaulted to `/` when empty) and
the same query.
-/

theorem schemeChar_ne_colon (c : Char) (h : isSchemeChar c = true) : (c == ':') = false := by
  cases hb : c == ':'
  · rfl
  · have hc : c = ':' := by simpa using hb
    rw [hc] at h
    exact absurd h (by decide)

theorem hostOk_facts (c : Char) (h : isHostOk c = true) :
    isAuthorityEnd c = false ∧ c ≠ ':' ∧ c ≠ '@' := by
  simp only [isHostOk, Bool.and_eq_true, Bool.not_eq_true', beq_eq_false_iff_ne] at h
  obtain ⟨⟨⟨⟨⟨⟨⟨⟨h1, h2⟩, h3⟩, h4⟩, h5⟩, h6⟩, h7⟩, h8⟩, h9⟩ := h
  refine ⟨?_, h4, h5⟩
  simp only [isAuthorityEnd, Bool.or_eq_false_iff, beq_eq_false_iff_ne]
  exact ⟨⟨h1, h2⟩, h3⟩

/-- Computation of `takeWhile` up to a failing sentinel after an
all-satisfying prefix. -/
theorem takeWhile_prefix_sentinel (q : Char → Bool) (l1 : JStr) (x : Char) (l2 : JStr)
    (h1 : ∀ c ∈ l1, q c = true) (hx : q x = false) :
    (l1 ++ x :: l2).takeWhile q = l1 := by
  rw [List.takeWhile_append_of_pos h1, List.takeWhile_cons_of_neg (by simp [hx])]
  simp

theorem dropWhile_prefix_sentinel (q : Char → Bool) (l1 : JStr) (x : Char) (l2 : JStr)
    (h1 : ∀ c ∈ l1, q c = true) (hx : q x = false) :
    (l1 ++ x :: l2).dropWhile q = x :: l2 := by
  rw [List.dropWhile_append_of_pos h1, List.dropWhile_cons_of_neg (by simp [hx])]

theorem takeWhile_of_all (q : Char → Bool) (l : JStr) (h : ∀ c ∈ l, q c = true) :
    l.takeWhile q = l := by
  have := @List.takeWhile_append_of_pos Char q l [] h
  simpa using this

theorem dropWhile_of_all (q : Char → Bool) (l : JStr) (h : ∀ c ∈ l, q c = true) :
    l.dropWhile q = [] := by
  have := @List.dropWhile_append_of_pos Char q l [] h
  simpa using this

theorem splitAtLast_of_not_mem (ch : Char) (l : JStr) (h : ch ∉ l) :
    splitAtLast ch l = none := by
  induction l with
  | nil => rfl
  | cons c cs ih =>
    have hcs : ch ∉ cs := fun hm => h (List.mem_cons_of_mem c hm)
    have hc : c ≠ ch := fun he => h (by rw [he]; exact List.mem_cons_self ch cs)
    simp [splitAtLast, ih hcs, hc]

/-- Characters of the stripped path come from the path. -/
theorem mem_stripTrailingSlash (l : JStr) (c : Char) (h : c ∈ stripTrailingSlash l) :
    c ∈ l := by
  unfold stripTrailingSlash at h
  split at h
  next r heq =>
    have hl : l = r.reverse ++ ['/'] := by
      have := congrArg List.reverse heq
      simpa using this
    rw [hl]
    exact List.mem_append.mpr (Or.inl h)
  next => exact h

/-- Shape of the stripped path of a well-formed path: empty or again
slash-headed. -/
theorem stripTrailingSlash_shape (l : JStr)
    (h : l = ['/'] ∨ ∃ r, l = '/' :: r) :
    stripTrailingSlash l = [] ∨ ∃ r', stripTrailingSlash l = '/' :: r' := by
  rcases h with h | ⟨r, h⟩
  · subst h
    left
    rfl
  · subst h
    unfold stripTrailingSlash
    split
    next r' heq =>
      have h2 : '/' :: r = r'.reverse ++ ['/'] := by
        have := congrArg List.reverse heq
        simpa using this
      cases hr' : r'.reverse with
      | nil => exact Or.inl rfl
      | cons z zs =>
        right
        rw [hr'] at h2
        have hz : '/' = z ∧ r = zs ++ ['/'] := by
          rw [List.cons_append] at h2
          exact ⟨List.head_eq_of_cons_eq h2, List.tail_eq_of_cons_eq h2⟩
        exact ⟨zs, by rw [← hz.1]⟩
    next =>
      exact Or.inr ⟨r, rfl⟩

/-- Shape of `dropWhile`: nothing, or a head failing the predicate. -/
theorem dropWhile_shape (q : Char → Bool) (l : JStr) :
    l.dropWhile q = [] ∨ ∃ x xs, l.dropWhile q = x :: xs ∧ q x = false := by
  induction l with
  | nil => exact Or.inl rfl
  | cons c cs ih =>
    by_cases hc : q c = true
    · rw [List.dropWhile_cons_of_pos hc]
      exact ih
    · have hc' : q c = false := by
        cases hq : q c
        · rfl
        · exact absurd hq hc
      rw [List.dropWhile_cons_of_neg (by simp [hc'])]
      exact Or.inr ⟨c, cs, rfl, hc'⟩

theorem takeWhile_pred_shape (tail : JStr)
    (htail : tail = [] ∨ ∃ x xs, tail = x :: xs ∧ isAuthorityEnd x = true) :
    tail.takeWhile (fun c => !(c == '?') && !(c == '#')) = [] ∨
    ∃ r, tail.takeWhile (fun c => !(c == '?') && !(c == '#')) = '/' :: r := by
  rcases htail with h | ⟨x, xs, h, hx⟩
  · subst h
    exact Or.inl rfl
  · subst h
    have hx3 : (x = '/' ∨ x = '?') ∨ x = '#' := by
      simpa [isAuthorityEnd, Bool.or_eq_true, beq_iff_eq] using hx
    rcases hx3 with h1 | h1
    · rcases h1 with h1 | h1
      · subst h1
        rw [List.takeWhile_cons_of_pos (by decide)]
        exact Or.inr ⟨_, rfl⟩
      · subst h1
        rw [List.takeWhile_cons_of_neg (by decide)]
        exact Or.inl rfl
    · subst h1
      rw [List.takeWhile_cons_of_neg (by decide)]
      exact Or.inl rfl

theorem defaultPath_shape (pt : JStr) (hpt : pt = [] ∨ ∃ r, pt = '/' :: r) :
    (if pt == [] then ['/'] else pt) = ['/'] ∨
    ∃ r, (if pt == [] then ['/'] else pt) = '/' :: r := by
  rcases hpt with h | ⟨r, h⟩ <;> subst h
  · exact Or.inl rfl
  · exact Or.inr ⟨r, rfl⟩

theorem searchField_shape (rest1 : JStr) :
    (if (match rest1 with
         | '?' :: r => r.takeWhile (fun c => !(c == '#'))
         | _ => ([] : JStr)) == [] then ([] : JStr)
     else '?' :: (match rest1 with
         | '?' :: r => r.takeWhile (fun c => !(c == '#'))
         | _ => ([] : JStr))) = [] ∨
    ∃ qq, (if (match rest1 with
         | '?' :: r => r.takeWhile (fun c => !(c == '#'))
         | _ => ([] : JStr)) == [] then ([] : JStr)
     else '?' :: (match rest1 with
         | '?' :: r => r.takeWhile (fun c => !(c == '#'))
         | _ => ([] : JStr))) = '?' :: qq ∧ qq ≠ [] ∧
      ∀ c ∈ qq, (!(c == '#')) = true := by
  by_cases hq : (match rest1 with
      | '?' :: r => r.takeWhile (fun c => !(c == '#'))
      | _ => ([] : JStr)) = []
  · left
    rw [if_pos (by simpa using hq)]
  · right
    refine ⟨_, ?_, hq, ?_⟩
    · rw [if_neg (by simpa using hq)]
    · intro c hc
      split at hc
      next => exact List.mem_takeWhile_imp (p := fun c => !(c == '#')) hc
      next => exact absurd hc (List.not_mem_nil c)

/-- Facts of `ParsedOK` delivered by `finishParse`, given a good scheme,
host and post-authority tail. -/
theorem buildParsedOK (scheme host tail : JStr) (ui : Option JStr) (port : Option JStr)
    (p : URLRec)
    (hshape : ∃ c0 r0, scheme = c0 :: r0 ∧ c0.isAlpha = true)
    (hok : ∀ c ∈ scheme, isSchemeChar c = true)
    (hne : host ≠ [])
    (hallok : ∀ c ∈ host, isHostOk c = true)
    (htail : tail = [] ∨ ∃ x xs, tail = x :: xs ∧ isAuthorityEnd x = true)
    (h : finishParse scheme ui host port tail = some p) : ParsedOK p := by
  simp only [finishParse] at h
  have hrec := Option.some.inj h
  subst hrec
  refine ⟨hshape, hok, hne, hallok, ?_, ?_, ?_⟩
  · exact defaultPath_shape _ (takeWhile_pred_shape tail htail)
  · intro c hc
    have hc2 : c ∈ (if tail.takeWhile (fun c => !(c == '?') && !(c == '#')) == []
        then ['/'] else tail.takeWhile (fun c => !(c == '?') && !(c == '#'))) := hc
    split at hc2
    next =>
      have hc' : c = '/' := by simpa using hc2
      subst hc'
      decide
    next => exact List.mem_takeWhile_imp (p := fun c => !(c == '?') && !(c == '#')) hc2
  · exact searchField_shape _

/-- Inversion of the authority stage: every successful
`parseAfterScheme` comes from a `finishParse` call on a validated
host. -/
theorem parseAfterScheme_ok (scheme rest : JStr) (p : URLRec)
    (hshape : ∃ c0 r0, scheme = c0 :: r0 ∧ c0.isAlpha = true)
    (hok : ∀ c ∈ scheme, isSchemeChar c = true)
    (h : parseAfterScheme scheme rest = some p) : ParsedOK p := by
  have htail0 := dropWhile_shape (fun c => !isAuthorityEnd c) rest
  have htail : rest.dropWhile (fun c => !isAuthorityEnd c) = [] ∨
      ∃ x xs, rest.dropWhile (fun c => !isAuthorityEnd c) = x :: xs ∧
        isAuthorityEnd x = true := by
    rcases htail0 with h0 | ⟨x, xs, he, hx⟩
    · exact Or.inl h0
    · exact Or.inr ⟨x, xs, he, by simpa using hx⟩
  simp only [parseAfterScheme] at h
  cases hA : splitAtLast '@' (rest.takeWhile fun c => !isAuthorityEnd c) with
  | none =>
    simp only [hA] at h
    cases hB : splitAtLast ':' (rest.takeWhile fun c => !isAuthorityEnd c) with
    | none =>
      simp only [hB] at h
      split at h
      next => exact Option.noConfusion h
      next hne =>
        split at h
        next => exact Option.noConfusion h
        next hall =>
          refine buildParsedOK scheme _ _ none none p hshape hok ?_ ?_ htail h
          · intro he
            exact hne (by simpa using he)
          · intro c hc
            have : ((rest.takeWhile fun c => !isAuthorityEnd c).all isHostOk) = true := by
              cases hq : (rest.takeWhile fun c => !isAuthorityEnd c).all isHostOk
              · exact absurd (by simpa using hq) hall
              · rfl
            exact List.all_eq_true.mp this c hc
    | some hp2 =>
      obtain ⟨hh, pr⟩ := hp2
      simp only [hB] at h
      split at h
      next => exact Option.noConfusion h
      next hne =>
        split at h
        next => exact Option.noConfusion h
        next hall =>
          split at h
          next hdig =>
            refine buildParsedOK scheme _ _ none (some pr) p hshape hok ?_ ?_ htail h
            · intro he
              exact hne (by simpa using he)
            · intro c hc
              have : (hh.all isHostOk) = true := by
                cases hq : hh.all isHostOk
                · exact absurd (by simpa using hq) hall
                · rfl
              exact List.all_eq_true.mp this c hc
          next => exact Option.noConfusion h
  | some uhp =>
    obtain ⟨uu, hpart⟩ := uhp
    simp only [hA] at h
    cases hB : splitAtLast ':' hpart with
    | none =>
      simp only [hB] at h
      split at h
      next => exact Option.noConfusion h
      next hne =>
        split at h
        next => exact Option.noConfusion h
        next hall =>
          refine buildParsedOK scheme _ _ (some uu) none p hshape hok ?_ ?_ htail h
          · intro he
            exact hne (by simpa using he)
          · intro c hc
            have : (hpart.all isHostOk) = true := by
              cases hq : hpart.all isHostOk
              · exact absurd (by simpa using hq) hall
              · rfl
            exact List.all_eq_true.mp this c hc
    | some hp2 =>
      obtain ⟨hh, pr⟩ := hp2
      simp only [hB] at h
      split at h
      next => exact Option.noConfusion h
      next hne =>
        split at h
        next => exact Option.noConfusion h
        next hall =>
          split at h
          next hdig =>
            refine buildParsedOK scheme _ _ (some uu) (some pr) p hshape hok ?_ ?_ htail h
            · intro he
              exact hne (by simpa using he)
            · intro c hc
              have : (hh.all isHostOk) = true := by
                cases hq : hh.all isHostOk
                · exact absurd (by simpa using hq) hall
                · rfl
              exact List.all_eq_true.mp this c hc
          next => exact Option.noConfusion h

/-- Inversion of `parseURL`: every successfully parsed record satisfies
`ParsedOK`. -/
theorem parse_ok (s : JStr) (p : URLRec) (h : parseURL s = some p) : ParsedOK p := by
  simp only [parseURL] at h
  split at h
  next rest hdrop =>
    split at h
    next => exact Option.noConfusion h
    next c0 tail0 hscheme =>
      split at h
      next => exact Option.noConfusion h
      next halpha =>
        split at h
        next => exact Option.noConfusion h
        next hall =>
          have hα : c0.isAlpha = true := by
            cases hq : c0.isAlpha
            · exact absurd (by simpa using hq) halpha
            · rfl
          have hsok : ∀ c ∈ s.takeWhile (fun c => !(c == ':')), isSchemeChar c = true := by
            have hallb : ((s.takeWhile fun c => !(c == ':')).all isSchemeChar) = true := by
              cases hq : (s.takeWhile fun c => !(c == ':')).all isSchemeChar
              · exact absurd (by simpa using hq) hall
              · rfl
            exact fun c hc => List.all_eq_true.mp hallb c hc
          exact parseAfterScheme_ok _ rest p ⟨c0, tail0, hscheme, hα⟩ hsok h
  next => exact Option.noConfusion h

/-- A path that does not end in a slash is unchanged by the strip. -/
theorem strip_of_endsWithSlash_false (l : JStr) (h : endsWithSlash l = false) :
    stripTrailingSlash l = l := by
  unfold endsWithSlash at h
  unfold stripTrailingSlash
  split
  next r heq =>
    rw [heq] at h
    simp at h
  next => rfl

/-- Computation of `finishParse` on a canonical tail (stripped path followed by the
query) reproduces the components. -/
theorem finishParse_canon (scheme host strip sq : JStr)
    (hstrip_ok : ∀ c ∈ strip, (!(c == '?') && !(c == '#')) = true)
    (hsq : sq = [] ∨ ∃ qq, sq = '?' :: qq ∧ qq ≠ [] ∧ ∀ c ∈ qq, (!(c == '#')) = true) :
    finishParse scheme none host none (strip ++ sq) =
      some { scheme := scheme, userinfo := none, hostname := host, port := none,
             pathname := if strip == [] then ['/'] else strip,
             search := sq, hash := [] } := by
  rcases hsq with hs | ⟨qq, hs, hqne, hqok⟩
  · subst hs
    simp only [List.append_nil, finishParse]
    rw [takeWhile_of_all _ strip hstrip_ok, dropWhile_of_all _ strip hstrip_ok]
    simp
  · subst hs
    simp only [finishParse]
    rw [takeWhile_prefix_sentinel _ strip '?' qq hstrip_ok (by decide),
        dropWhile_prefix_sentinel _ strip '?' qq hstrip_ok (by decide)]
    have hfr : ('?' :: qq).dropWhile (fun c => !(c == '#')) = [] := by
      apply dropWhile_of_all
      intro c hc
      rcases List.mem_cons.mp hc with h | h
      · subst h
        decide
      · exact hqok c h
    have hqq : (qq == []) = false := by simpa using hqne
    simp [hfr, takeWhile_of_all _ qq hqok, hqq]

/-- The authority stage on `host ++ tail` with a valid slash-, query- or
end-headed tail isolates exactly the host, no userinfo and no port. -/
theorem parseAfterScheme_canon (scheme host t2 : JStr)
    (hne : host ≠ []) (hok : ∀ c ∈ host, isHostOk c = true)
    (ht2 : t2 = [] ∨ ∃ x xs, t2 = x :: xs ∧ isAuthorityEnd x = true) :
    parseAfterScheme scheme (host ++ t2) = finishParse scheme none host none t2 := by
  have hhostq : ∀ c ∈ host, (fun c => !isAuthorityEnd c) c = true := by
    intro c hc
    simp [(hostOk_facts c (hok c hc)).1]
  have hauth : (host ++ t2).takeWhile (fun c => !isAuthorityEnd c) = host := by
    rcases ht2 with h | ⟨x, xs, h, hx⟩
    · subst h
      simpa using takeWhile_of_all _ host hhostq
    · subst h
      exact takeWhile_prefix_sentinel _ host x xs hhostq (by simp [hx])
  have htail : (host ++ t2).dropWhile (fun c => !isAuthorityEnd c) = t2 := by
    rcases ht2 with h | ⟨x, xs, h, hx⟩
    · subst h
      simpa using dropWhile_of_all _ host hhostq
    · subst h
      exact dropWhile_prefix_sentinel _ host x xs hhostq (by simp [hx])
  have hat : splitAtLast '@' host = none :=
    splitAtLast_of_not_mem _ _ (fun hm => (hostOk_facts '@' (hok _ hm)).2.2 rfl)
  have hcol : splitAtLast ':' host = none :=
    splitAtLast_of_not_mem _ _ (fun hm => (hostOk_facts ':' (hok _ hm)).2.1 rfl)
  have h1 : (host == []) = false := by simpa using hne
  have h2 : (host.all isHostOk) = true := List.all_eq_true.mpr hok
  simp only [parseAfterScheme, hauth, htail, hat, hcol, h1, h2]
  simp

/-- Reparsing the canonical serialization: same scheme, host and query,
no userinfo, no port, stripped path defaulted to `/`, no fragment. -/
theorem parse_canon (p : URLRec) (hp : ParsedOK p) :
    parseURL (canonSerialize p) =
      some { scheme := p.scheme, userinfo := none, hostname := p.hostname, port := none,
             pathname := if stripTrailingSlash p.pathname == [] then ['/']
                         else stripTrailingSlash p.pathname,
             search := p.search, hash := [] } := by
  obtain ⟨c0, r0, hsch, hα⟩ := hp.scheme_shape
  have hq1 : ∀ c ∈ p.scheme, (fun c => !(c == ':')) c = true := by
    intro c hc
    simpa using schemeChar_ne_colon c (hp.scheme_ok c hc)
  have hallsch : (p.scheme.all isSchemeChar) = true := List.all_eq_true.mpr hp.scheme_ok
  have hstrip_shape := stripTrailingSlash_shape p.pathname hp.path_shape
  have hstrip_ok : ∀ c ∈ stripTrailingSlash p.pathname, (!(c == '?') && !(c == '#')) = true :=
    fun c hc => hp.path_ok c (mem_stripTrailingSlash p.pathname c hc)
  have ht2 : stripTrailingSlash p.pathname ++ p.search = [] ∨
      ∃ x xs, stripTrailingSlash p.pathname ++ p.search = x :: xs ∧
        isAuthorityEnd x = true := by
    rcases hstrip_shape with h | ⟨r', h⟩
    · rw [h, List.nil_append]
      rcases hp.search_shape with h2 | ⟨qq, h2, _, _⟩
      · exact Or.inl h2
      · exact Or.inr ⟨'?', qq, h2, by decide⟩
    · rw [h, List.cons_append]
      exact Or.inr ⟨'/', _, rfl, by decide⟩
  have hstep1 : parseURL (canonSerialize p) =
      parseAfterScheme p.scheme (p.hostname ++ (stripTrailingSlash p.pathname ++ p.search)) := by
    simp only [parseURL, canonSerialize]
    rw [takeWhile_prefix_sentinel _ p.scheme ':' _ hq1 (by decide),
        dropWhile_prefix_sentinel _ p.scheme ':' _ hq1 (by decide)]
    rw [hsch]
    simp [hα, hallsch, ← hsch]
  rw [hstep1, parseAfterScheme_canon p.scheme p.hostname _ hp.host_ne hp.host_ok ht2,
      finishParse_canon p.scheme p.hostname _ p.search hstrip_ok hp.search_shape]

/-- Counterexample to C6's idempotence: `normalizeURL` strips only a
single trailing slash, so on a path ending in two slashes each
application removes one:
`https://h/a//` canonicalizes to `https://h/a/`, which canonicalizes
further to `https://h/a` — `canonicalize (canonicalize u)` differs from
`canonicalize u`.  (The same behaviour is observable in the source:
`new URL("https://h/a//").pathname` is `/a//`, one `slice(0, -1)` leaves
`/a/`.) -/
theorem claim_C6_counterexample :
    normalizeURL "https://h/a//".toList = some "https://h/a/".toList ∧
    normalizeURL "https://h/a/".toList = some "https://h/a".toList ∧
    (normalizeURL "https://h/a//".toList).bind normalizeURL ≠
      normalizeURL "https://h/a//".toList := by decide

/-- C6 (amended): canonicalization is a pure total function that fails
exactly when the input does not parse as an absolute URL; on success the
canonical string is itself parseable; and it is idempotent for every URL
whose stripped path does not still end in a slash (equivalently, whose
path does not end in `//`) — stripping only a single trailing slash
breaks idempotence exactly on such paths. -/
theorem claim_C6_canonicalize (s : JStr) (p : URLRec) (hp : parseURL s = some p)
    (hpath : endsWithSlash (stripTrailingSlash p.pathname) = false) :
    (∃ u, normalizeURL s = some u ∧ (parseURL u).isSome = true ∧ normalizeURL u = some u) ∧
    (∀ s' : JStr, normalizeURL s' = none ↔ parseURL s' = none) := by
  have hok := parse_ok s p hp
  have hre := parse_canon p hok
  constructor
  · refine ⟨canonSerialize p, by simp [normalizeURL, hp], by simp [hre], ?_⟩
    have hfix : stripTrailingSlash (if stripTrailingSlash p.pathname = [] then ['/']
        else stripTrailingSlash p.pathname) = stripTrailingSlash p.pathname := by
      by_cases hst : stripTrailingSlash p.pathname = []
      · rw [if_pos hst, hst]
        rfl
      · rw [if_neg hst]
        exact strip_of_endsWithSlash_false _ hpath
    unfold normalizeURL
    rw [hre]
    simp [canonSerialize, hfix]
  · intro s'
    cases hps' : parseURL s' <;> simp [normalizeURL, hps']

/-- Witness for the amended C6 on a URL with a trailing slash. -/
theorem claim_C6_witness :
    parseURL "https://h/a/".toList =
      some { scheme := "https".toList, userinfo := none, hostname := "h".toList,
             port := none, pathname := "/a/".toList, search := [], hash := [] } ∧
    endsWithSlash (stripTrailingSlash "/a/".toList) = false ∧
    ((∃ u, normalizeURL "https://h/a/".toList = some u ∧ (parseURL u).isSome = true ∧
        normalizeURL u = some u) ∧
     (∀ s' : JStr, normalizeURL s' = none ↔ parseURL s' = none)) :=
  ⟨by decide, by decide,
    claim_C6_canonicalize "https://h/a/".toList
      { scheme := "https".toList, userinfo := none, hostname := "h".toList,
        port := none, pathname := "/a/".toList, search := [], hash := [] }
      (by decide) (by decide)⟩

/-- C10: two absolute URLs differing only in an explicit port and/or
userinfo canonicalize to the identical key (the serialization reads only
scheme, hostname, path and query), and no canonical URL carries a port
or userinfo: reparsing any canonical key yields `port = none` and
`userinfo = none`. -/
theorem claim_C10_port_userinfo_dropped (s1 s2 : JStr) (p1 p2 : URLRec)
    (h1 : parseURL s1 = some p1) (h2 : parseURL s2 = some p2)
    (hsch : p1.scheme = p2.scheme) (hhost : p1.hostname = p2.hostname)
    (hpath : p1.pathname = p2.pathname) (hsearch : p1.search = p2.search) :
    normalizeURL s1 = normalizeURL s2 ∧
    (∀ (s u : JStr) (p : URLRec), normalizeURL s = some u → parseURL u = some p →
      p.port = none ∧ p.userinfo = none) := by
  constructor
  · simp [normalizeURL, h1, h2, canonSerialize, hsch, hhost, hpath, hsearch]
  · intro s u p hn hpu
    cases hps : parseURL s with
    | none => simp [normalizeURL, hps] at hn
    | some p0 =>
      have hu : canonSerialize p0 = u := by
        simpa [normalizeURL, hps] using hn
      subst hu
      have hre := parse_canon p0 (parse_ok s p0 hps)
      rw [hre] at hpu
      have hrec := Option.some.inj hpu
      rw [← hrec]
      exact ⟨rfl, rfl⟩

/-- Witness for C10: `https://alice@h:8443/x` and `https://h/x` get the
same canonical key. -/
theorem claim_C10_witness :
    parseURL "https://alice@h:8443/x".toList =
      some { scheme := "https".toList, userinfo := some "alice".toList,
             hostname := "h".toList, port := some "8443".toList,
             pathname := "/x".toList, search := [], hash := [] } ∧
    parseURL "https://h/x".toList =
      some { scheme := "https".toList, userinfo := none, hostname := "h".toList,
             port := none, pathname := "/x".toList, search := [], hash := [] } ∧
    (normalizeURL "https://alice@h:8443/x".toList = normalizeURL "https://h/x".toList ∧
     (∀ (s u : JStr) (p : URLRec), normalizeURL s = some u → parseURL u = some p →
       p.port = none ∧ p.userinfo = none)) :=
  ⟨by decide, by decide,
    claim_C10_port_userinfo_dropped "https://alice@h:8443/x".toList "https://h/x".toList
      { scheme := "https".toList, userinfo := some "alice".toList,
        hostname := "h".toList, port := some "8443".toList,
        pathname := "/x".toList, search := [], hash := [] }
      { scheme := "https".toList, userinfo := none, hostname := "h".toList,
        port := none, pathname := "/x".toList, search := [], hash := [] }
      (by decide) (by decide) rfl rfl rfl rfl⟩

